import Mathlib

/-!
Verification development for the curve-api core infrastructure:
the Call Aggregator (`multiCall`), the Batch Executor (`runConcurrentlyAtMost`),
the Revalidating Cache (`swr`), and `getPlatformRegistries`.
-/

/-! ## Call Aggregator (`multiCall`)

Modelled from the spec: the implementation file `utils/Calls.js` is not among the
sources at hand (only its callers are), so `multiCall` and its data model are
modelled from the spec's §3 data model, §4.3 contract and §6 upstream interface.
-/

/-- A `CallDescriptor`: destination (grouping key: network/endpoint and batching
address), the read operation (address, method, params folded into one opaque
field), and opaque caller-attached metadata, round-tripped verbatim. -/
structure CallDescriptor (Dest Call Meta : Type) where
  dest : Dest
  call : Call
  metaData : Option Meta
deriving DecidableEq

/-- A `CallResult`: the decoded return value (or an error marker), either bare
(descriptor carried no metadata) or paired with the originating descriptor's
metadata. -/
inductive CallResult (Val Meta Err : Type) where
  | bare (d : Except Err Val)
  | withMeta (d : Except Err Val) (m : Meta)

/-- The decoded value (or error marker) carried by a `CallResult`. -/
def CallResult.data : CallResult Val Meta Err → Except Err Val
  | .bare d => d
  | .withMeta d _ => d

/-- The metadata carried by a `CallResult`, if any. -/
def CallResult.meta : CallResult Val Meta Err → Option Meta
  | .bare _ => none
  | .withMeta _ m => some m

/-- Modelled from the spec: the upstream read endpoint for one destination.
`net d` is the whole-round-trip failure cause for destination `d` (`none` when
the round-trip succeeds); within a successful round-trip, `upstream d c` is the
individual (possibly reverted) result for call `c`.  A round-trip submits a
group's calls in order and yields ordered raw results, or fails the whole
batch. -/
def tripResults [DecidableEq Dest] (net : Dest → Option Err)
    (upstream : Dest → Call → Except Err Val) (d : Dest)
    (g : List (CallDescriptor Dest Call Meta)) : List (Except Err Val) :=
  match net d with
  | some e => g.map (fun _ => .error e)
  | none => g.map (fun x => upstream d x.call)

/-- Shape of one output item: with metadata present the result is an object
with fields `data` and `metaData`; with metadata absent it is the bare decoded
value. -/
def mkCallResult (md : Option Meta) (r : Except Err Val) : CallResult Val Meta Err :=
  match md with
  | some m => .withMeta r m
  | none => .bare r

/-- The value a single descriptor resolves to: the round-trip failure cause if
its destination's round-trip failed, otherwise its individual upstream result. -/
def callData (net : Dest → Option Err) (upstream : Dest → Call → Except Err Val)
    (x : CallDescriptor Dest Call Meta) : Except Err Val :=
  match net x.dest with
  | some e => .error e
  | none => upstream x.dest x.call

/-- Modelled from the spec: `multiCall` groups descriptors by destination, does
one round-trip per group, and demultiplexes the group's ordered raw results
back onto the original descriptors (the result for descriptor `i` sits within
its group at the position given by how many earlier descriptors share its
destination). -/
def multiCall [DecidableEq Dest] [Inhabited Err] (net : Dest → Option Err)
    (upstream : Dest → Call → Except Err Val)
    (ds : List (CallDescriptor Dest Call Meta)) : List (CallResult Val Meta Err) :=
  (List.range ds.length).map (fun i =>
    match ds[i]? with
    | none => .bare (.error default)
    | some x =>
      let group := ds.filter (fun y => y.dest = x.dest)
      let rs := tripResults net upstream x.dest group
      mkCallResult x.metaData ((rs[(ds.take i).countP (fun y => y.dest = x.dest)]?).getD
        (.error default)))

theorem getElem?_filter_countP_take (p : α → Bool) :
    ∀ (l : List α) (i : Nat) (x : α), l[i]? = some x → p x →
      (l.filter p)[(l.take i).countP p]? = some x := by
  intro l
  induction l with
  | nil => intro i x h _; simp at h
  | cons a t ih =>
    intro i x h hp
    cases i with
    | zero =>
      simp at h
      subst h
      simp [List.filter_cons, hp]
    | succ i =>
      simp at h
      by_cases hpa : p a = true
      · simpa [List.filter_cons, hpa, List.countP_cons] using ih i x h hp
      · simp only [Bool.not_eq_true] at hpa
        simpa [List.filter_cons, hpa, List.countP_cons] using ih i x h hp

theorem multiCall_length [DecidableEq Dest] [Inhabited Err] (net : Dest → Option Err)
    (upstream : Dest → Call → Except Err Val)
    (ds : List (CallDescriptor Dest Call Meta)) :
    (multiCall net upstream ds).length = ds.length := by
  simp [multiCall]

theorem tripResults_of_fail [DecidableEq Dest] (net : Dest → Option Err)
    (upstream : Dest → Call → Except Err Val) (d : Dest)
    (g : List (CallDescriptor Dest Call Meta)) (e : Err) (h : net d = some e) :
    tripResults net upstream d g = g.map (fun _ => .error e) := by
  unfold tripResults
  rw [h]

theorem tripResults_of_ok [DecidableEq Dest] (net : Dest → Option Err)
    (upstream : Dest → Call → Except Err Val) (d : Dest)
    (g : List (CallDescriptor Dest Call Meta)) (h : net d = none) :
    tripResults net upstream d g = g.map (fun x => upstream d x.call) := by
  unfold tripResults
  rw [h]

theorem multiCall_getElem? [DecidableEq Dest] [Inhabited Err] (net : Dest → Option Err)
    (upstream : Dest → Call → Except Err Val)
    (ds : List (CallDescriptor Dest Call Meta)) (i : Nat) (x : CallDescriptor Dest Call Meta)
    (h : ds[i]? = some x) :
    (multiCall net upstream ds)[i]? = some (mkCallResult x.metaData (callData net upstream x)) := by
  have hi : i < ds.length := by
    rcases List.getElem?_eq_some.mp h with ⟨hlt, _⟩
    exact hlt
  have hgroup := getElem?_filter_countP_take (fun y => y.dest = x.dest) ds i x h (by simp)
  unfold multiCall
  simp only [List.getElem?_map, List.getElem?_range hi, Option.map_some', h]
  cases hnet : net x.dest with
  | some e =>
    rw [tripResults_of_fail net upstream _ _ _ hnet, List.getElem?_map, hgroup]
    simp [callData, hnet]
  | none =>
    rw [tripResults_of_ok net upstream _ _ hnet, List.getElem?_map, hgroup]
    simp [callData, hnet]

theorem mkCallResult_meta (md : Option Meta) (r : Except Err Val) :
    (mkCallResult md r : CallResult Val Meta Err).meta = md := by
  cases md <;> rfl

theorem mkCallResult_data (md : Option Meta) (r : Except Err Val) :
    (mkCallResult md r : CallResult Val Meta Err).data = r := by
  cases md <;> rfl

/-- C2: `multiCall` is order-preserving and one-to-one with its input: the output
has the same length as the input, the result at index `i` is built from
descriptor `i`'s own destination, call and metadata, and the metadata carried by
the result at index `i` equals `descriptors[i].metaData` verbatim. -/
theorem multiCall_order_preserving [DecidableEq Dest] [Inhabited Err]
    (net : Dest → Option Err) (upstream : Dest → Call → Except Err Val)
    (ds : List (CallDescriptor Dest Call Meta)) :
    (multiCall net upstream ds).length = ds.length ∧
    ∀ (i : Nat) (x : CallDescriptor Dest Call Meta), ds[i]? = some x →
      (multiCall net upstream ds)[i]? = some (mkCallResult x.metaData (callData net upstream x)) ∧
      ((multiCall net upstream ds)[i]?).map CallResult.meta = some x.metaData := by
  refine ⟨multiCall_length net upstream ds, fun i x h => ?_⟩
  have hm := multiCall_getElem? net upstream ds i x h
  refine ⟨hm, ?_⟩
  rw [hm]
  simp [mkCallResult_meta]

def net0 : Nat → Option Unit := fun d => if d = 0 then some () else none

def up0 : Nat → Nat → Except Unit Nat := fun d c => .ok (d + c)

def ds0 : List (CallDescriptor Nat Nat Nat) := [⟨0, 10, some 5⟩, ⟨1, 11, none⟩, ⟨0, 12, some 7⟩]

theorem multiCall_order_preserving_witness :
    (multiCall net0 up0 ds0).length = 3 ∧
    (multiCall net0 up0 ds0)[0]? = some (.withMeta (.error ()) 5) ∧
    ((multiCall net0 up0 ds0)[1]?).map CallResult.meta = some none := by
  have h := multiCall_order_preserving net0 up0 ds0
  refine ⟨h.1, ?_, ?_⟩
  · have h0 := (h.2 0 ⟨0, 10, some 5⟩ rfl).1
    rw [h0]
    rfl
  · exact (h.2 1 ⟨1, 11, none⟩ rfl).2

/-- C4: if the round-trip to destination `D` fails, every result whose
descriptor targets `D` is marked failed, results for descriptors of other
(successful) destinations resolve normally to their own upstream value, and the
output still has one result per descriptor — the group failure is never a
whole-sequence failure thrown to the caller. -/
theorem multiCall_group_failure_isolated [DecidableEq Dest] [Inhabited Err]
    (net : Dest → Option Err) (upstream : Dest → Call → Except Err Val)
    (ds : List (CallDescriptor Dest Call Meta)) (D : Dest) (e : Err) (hD : net D = some e) :
    (multiCall net upstream ds).length = ds.length ∧
    (∀ (i : Nat) (x : CallDescriptor Dest Call Meta), ds[i]? = some x → x.dest = D →
      ((multiCall net upstream ds)[i]?).map CallResult.data = some (.error e)) ∧
    (∀ (i : Nat) (x : CallDescriptor Dest Call Meta), ds[i]? = some x → x.dest ≠ D → net x.dest = none →
      ((multiCall net upstream ds)[i]?).map CallResult.data = some (upstream x.dest x.call)) := by
  refine ⟨multiCall_length net upstream ds, fun i x h hdest => ?_, fun i x h _ hok => ?_⟩
  · rw [multiCall_getElem? net upstream ds i x h]
    simp [mkCallResult_data, callData, hdest, hD]
  · rw [multiCall_getElem? net upstream ds i x h]
    simp [mkCallResult_data, callData, hok]

theorem multiCall_group_failure_isolated_witness :
    net0 0 = some () ∧
    ((multiCall net0 up0 ds0)[0]?).map CallResult.data = some (.error ()) ∧
    ((multiCall net0 up0 ds0)[2]?).map CallResult.data = some (.error ()) ∧
    ((multiCall net0 up0 ds0)[1]?).map CallResult.data = some (.ok 12) ∧
    (multiCall net0 up0 ds0).length = 3 := by
  have h := multiCall_group_failure_isolated net0 up0 ds0 0 () rfl
  exact ⟨rfl, h.2.1 0 ⟨0, 10, some 5⟩ rfl rfl, h.2.1 2 ⟨0, 12, some 7⟩ rfl rfl,
    h.2.2 1 ⟨1, 11, none⟩ rfl (by decide) rfl, h.1⟩

/-- C9: the shape of the result at index `i` depends on whether descriptor `i`
carries metadata: with metadata `m` present the result is an object pairing the
decoded value with `m` verbatim; with metadata absent it is the bare decoded
value, not a wrapping object. -/
theorem multiCall_result_shape [DecidableEq Dest] [Inhabited Err]
    (net : Dest → Option Err) (upstream : Dest → Call → Except Err Val)
    (ds : List (CallDescriptor Dest Call Meta)) :
    ∀ (i : Nat) (x : CallDescriptor Dest Call Meta), ds[i]? = some x →
      (∀ m, x.metaData = some m →
        (multiCall net upstream ds)[i]? = some (.withMeta (callData net upstream x) m)) ∧
      (x.metaData = none →
        (multiCall net upstream ds)[i]? = some (.bare (callData net upstream x))) := by
  intro i x h
  have hm := multiCall_getElem? net upstream ds i x h
  constructor
  · intro m hmd
    rw [hm, hmd]
    rfl
  · intro hmd
    rw [hm, hmd]
    rfl

theorem multiCall_result_shape_witness :
    (multiCall net0 up0 ds0)[0]? = some (.withMeta (.error ()) 5) ∧
    (multiCall net0 up0 ds0)[1]? = some (.bare (.ok 12)) := by
  have h := multiCall_result_shape net0 up0 ds0
  exact ⟨(h 0 ⟨0, 10, some 5⟩ rfl).1 5 rfl, (h 1 ⟨1, 11, none⟩ rfl).2 rfl⟩

/-! ## `getPlatformRegistries` (from `src/unnamed/part_001`, lines 409-450)

A chain config carries `hasNoMainRegistry` and up to seven optional
address-getter functions; presence of a getter (`typeof f === 'function'`) is
modelled as an `Option` being `some`, whose payload is the awaited address the
getter resolves to.  The main registry address comes from
`getMainRegistryAddress(blockchainId)`, modelled as the parameter `mainAddr`. -/
structure PlatformConfig (Addr : Type) where
  hasNoMainRegistry : Bool
  getFactoryRegistryAddress : Option Addr
  getCryptoRegistryAddress : Option Addr
  getFactoryCryptoRegistryAddress : Option Addr
  getFactoryCrvusdRegistryAddress : Option Addr
  getFactoryTricryptoRegistryAddress : Option Addr
  getFactoryEywaRegistryAddress : Option Addr
  getFactoryStableswapNgRegistryAddress : Option Addr

/-- The `registryIds` array built by `getPlatformRegistries`: one candidate per
registry, `null` (here `none`) when the config lacks that registry, then
filtered to drop the nulls. -/
def registryIds (c : PlatformConfig Addr) : List String :=
  ([ (if !c.hasNoMainRegistry then some "main" else none),
     (if c.getFactoryRegistryAddress.isSome then some "factory" else none),
     (if c.getCryptoRegistryAddress.isSome then some "crypto" else none),
     (if c.getFactoryCryptoRegistryAddress.isSome then some "factory-crypto" else none),
     (if c.getFactoryCrvusdRegistryAddress.isSome then some "factory-crvusd" else none),
     (if c.getFactoryTricryptoRegistryAddress.isSome then some "factory-tricrypto" else none),
     (if c.getFactoryEywaRegistryAddress.isSome then some "factory-eywa" else none),
     (if c.getFactoryStableswapNgRegistryAddress.isSome then some "factory-stable-ng" else none) ]).reduceOption

/-- The `registryAddresses` array built by `getPlatformRegistries`: the awaited
getter results in the same positions, with the same presence conditions, then
filtered to drop the nulls. -/
def registryAddresses (mainAddr : Addr) (c : PlatformConfig Addr) : List Addr :=
  ([ (if !c.hasNoMainRegistry then some mainAddr else none),
     c.getFactoryRegistryAddress,
     c.getCryptoRegistryAddress,
     c.getFactoryCryptoRegistryAddress,
     c.getFactoryCrvusdRegistryAddress,
     c.getFactoryTricryptoRegistryAddress,
     c.getFactoryEywaRegistryAddress,
     c.getFactoryStableswapNgRegistryAddress ]).reduceOption

/-- The id/address pairs, filtered once from the same presence conditions: the
reference point for stating that the two arrays of `getPlatformRegistries`
correspond index-wise. -/
def registryPairs (mainAddr : Addr) (c : PlatformConfig Addr) : List (String × Addr) :=
  ([ (if !c.hasNoMainRegistry then some ("main", mainAddr) else none),
     c.getFactoryRegistryAddress.map (fun a => ("factory", a)),
     c.getCryptoRegistryAddress.map (fun a => ("crypto", a)),
     c.getFactoryCryptoRegistryAddress.map (fun a => ("factory-crypto", a)),
     c.getFactoryCrvusdRegistryAddress.map (fun a => ("factory-crvusd", a)),
     c.getFactoryTricryptoRegistryAddress.map (fun a => ("factory-tricrypto", a)),
     c.getFactoryEywaRegistryAddress.map (fun a => ("factory-eywa", a)),
     c.getFactoryStableswapNgRegistryAddress.map (fun a => ("factory-stable-ng", a)) ]).reduceOption

/-- C10: for every config, `getPlatformRegistries` returns `registryIds` and
`registryAddresses` of equal length whose elements correspond index-wise — both
arrays are the two projections of the one pair list filtered from the same
presence conditions applied in the same order, so `registryIds[i]` names
exactly the registry whose resolved address is `registryAddresses[i]`. -/
theorem getPlatformRegistries_aligned (mainAddr : Addr) (c : PlatformConfig Addr) :
    registryIds c = (registryPairs mainAddr c).map Prod.fst ∧
    registryAddresses mainAddr c = (registryPairs mainAddr c).map Prod.snd ∧
    (registryIds c).length = (registryAddresses mainAddr c).length := by
  have hfst_pair : ∀ (b : Bool) (x : String) (y : Addr),
      Option.map Prod.fst (if b then some (x, y) else none) = if b then some x else none := by
    intro b x y
    cases b <;> rfl
  have hfst_opt : ∀ (o : Option Addr) (x : String),
      Option.map Prod.fst (o.map (fun a => (x, a))) = if o.isSome then some x else none := by
    intro o x
    cases o <;> rfl
  have hsnd_pair : ∀ (b : Bool) (x : String) (y : Addr),
      Option.map Prod.snd (if b then some (x, y) else none) = if b then some y else none := by
    intro b x y
    cases b <;> rfl
  have hsnd_opt : ∀ (o : Option Addr) (x : String),
      Option.map Prod.snd (o.map (fun a => (x, a))) = o := by
    intro o x
    cases o <;> rfl
  have h1 : registryIds c = (registryPairs mainAddr c).map Prod.fst := by
    rw [registryIds, registryPairs, ← List.reduceOption_map]
    simp only [List.map_cons, List.map_nil, hfst_pair, hfst_opt]
  have h2 : registryAddresses mainAddr c = (registryPairs mainAddr c).map Prod.snd := by
    rw [registryAddresses, registryPairs, ← List.reduceOption_map]
    simp only [List.map_cons, List.map_nil, hsnd_pair, hsnd_opt]
  refine ⟨h1, h2, ?_⟩
  rw [h1, h2]
  simp

/-! ## Batch Executor (`runConcurrentlyAtMost`)

Modelled from the spec: the implementation file `utils/Async.js` is not among
the sources at hand (only callers such as
`src/routes/v1/getSubgraphData/[blockchainId].js` are), so the executor is
modelled from the spec's §4.2 contract and §5 scheduling model.  A task is a
zero-argument producer opaque to the executor; with no cancellation, task `i`'s
settled outcome is a fixed `outcomes i`.  The executor keeps a moving window of
started-but-unsettled task indices; the scheduler nondeterministically picks
which unsettled task settles next, and as tasks settle the next pending tasks
(in input order) are started while the window has room. -/
structure ExecState (α ε : Type) where
  nextToStart : Nat
  unsettled : List Nat
  results : Nat → Option (Except ε α)

/-- Start pending tasks (in input order) while fewer than `limit` are
unsettled; `fuel` bounds the loop. -/
def fillAux (n limit : Nat) : Nat → ExecState α ε → ExecState α ε
  | 0, s => s
  | fuel + 1, s =>
    if s.nextToStart < n ∧ s.unsettled.length < limit then
      fillAux n limit fuel
        { s with nextToStart := s.nextToStart + 1,
                 unsettled := s.unsettled ++ [s.nextToStart] }
    else s

/-- Top up the concurrency window (fuel `n` always suffices). -/
def fill (n limit : Nat) (s : ExecState α ε) : ExecState α ε := fillAux n limit n s

/-- One scheduler step: unsettled task `i` settles to its fixed outcome, its
slot is vacated and the window is topped up with the next pending tasks. -/
def settleTask (outcomes : Nat → Except ε α) (n limit i : Nat) (s : ExecState α ε) :
    ExecState α ε :=
  if i ∈ s.unsettled then
    fill n limit
      { s with unsettled := s.unsettled.erase i,
               results := Function.update s.results i (some (outcomes i)) }
  else s

/-- No task started, nothing settled. -/
def initExecState (α ε : Type) : ExecState α ε := ⟨0, [], fun _ => none⟩

/-- State right after `runConcurrentlyAtMost(tasks, limit)` is entered: the
first `min limit n` tasks are started. -/
def execStart (α ε : Type) (n limit : Nat) : ExecState α ε :=
  fill n limit (initExecState α ε)

/-- A whole execution: the scheduler settles tasks in the order given by
`sched` (invalid picks are no-ops). -/
def runExec (outcomes : Nat → Except ε α) (n limit : Nat) (sched : List Nat) : ExecState α ε :=
  sched.foldl (fun s i => settleTask outcomes n limit i s) (execStart α ε n limit)

/-- The output sequence: one slot per input task, in input order. -/
def execOutput (n : Nat) (s : ExecState α ε) : List (Option (Except ε α)) :=
  (List.range n).map s.results

/-- The execution is over: every task was started and every task settled. -/
def FinalExec (n : Nat) (s : ExecState α ε) : Prop :=
  s.nextToStart = n ∧ s.unsettled = []

/-- States some scheduling order can put the executor in. -/
def ReachExec (outcomes : Nat → Except ε α) (n limit : Nat) (s : ExecState α ε) : Prop :=
  ∃ sched : List Nat, runExec outcomes n limit sched = s

/-- Executor invariant, minus the window-filled clause (which only holds
between fill phases). -/
structure ExecPre (outcomes : Nat → Except ε α) (n limit : Nat) (s : ExecState α ε) : Prop where
  next_le : s.nextToStart ≤ n
  mem_lt : ∀ i ∈ s.unsettled, i < s.nextToStart
  nodup : s.unsettled.Nodup
  window : s.unsettled.length ≤ limit
  res : ∀ i, s.results i =
    if i < s.nextToStart ∧ i ∉ s.unsettled then some (outcomes i) else none

/-- Full executor invariant: additionally, the window is only below `limit`
when every task has already been started. -/
structure ExecInv (outcomes : Nat → Except ε α) (n limit : Nat) (s : ExecState α ε) extends
    ExecPre outcomes n limit s : Prop where
  filled : s.unsettled.length < limit → s.nextToStart = n

theorem fillAux_inv {outcomes : Nat → Except ε α} (n limit : Nat) :
    ∀ (fuel : Nat) (s : ExecState α ε), ExecPre outcomes n limit s →
      n ≤ s.nextToStart + fuel → ExecInv outcomes n limit (fillAux n limit fuel s) := by
  intro fuel
  induction fuel with
  | zero =>
    intro s hpre hfuel
    have hle := hpre.next_le
    refine ⟨hpre, fun _ => ?_⟩
    show s.nextToStart = n
    omega
  | succ fuel ih =>
    intro s hpre hfuel
    simp only [fillAux]
    split_ifs with hcond
    · obtain ⟨hlt, hlen⟩ := hcond
      refine ih { s with nextToStart := s.nextToStart + 1,
                         unsettled := s.unsettled ++ [s.nextToStart] } ?_
        (by dsimp only; omega)
      constructor
      · dsimp only
        omega
      · dsimp only
        intro i hi
        rcases List.mem_append.mp hi with hi | hi
        · have := hpre.mem_lt i hi
          omega
        · have : i = s.nextToStart := by simpa using hi
          omega
      · dsimp only
        rw [List.nodup_append]
        refine ⟨hpre.nodup, List.nodup_singleton _, ?_⟩
        intro i hi hi'
        have heq : i = s.nextToStart := by simpa using hi'
        subst heq
        exact absurd (hpre.mem_lt _ hi) (by omega)
      · dsimp only
        rw [List.length_append]
        simp only [List.length_singleton]
        omega
      · dsimp only
        intro i
        rw [hpre.res i]
        have hiff : (i < s.nextToStart + 1 ∧ i ∉ s.unsettled ++ [s.nextToStart]) ↔
            (i < s.nextToStart ∧ i ∉ s.unsettled) := by
          rw [show (i ∉ s.unsettled ++ [s.nextToStart]) ↔
              ¬(i ∈ s.unsettled ∨ i ∈ [s.nextToStart]) from by rw [List.mem_append]]
          simp only [List.mem_singleton]
          constructor
          · rintro ⟨hlt2, hn⟩
            push_neg at hn
            obtain ⟨hn1, hn2⟩ := hn
            exact ⟨by omega, hn1⟩
          · rintro ⟨hlt2, hn⟩
            refine ⟨by omega, ?_⟩
            push_neg
            exact ⟨hn, by omega⟩
        rw [if_congr hiff rfl rfl]
    · have hle := hpre.next_le
      refine ⟨hpre, fun hlen => ?_⟩
      by_cases hnext : s.nextToStart < n
      · exact absurd ⟨hnext, hlen⟩ hcond
      · omega

theorem fill_inv {outcomes : Nat → Except ε α} (n limit : Nat) (s : ExecState α ε)
    (hpre : ExecPre outcomes n limit s) : ExecInv outcomes n limit (fill n limit s) := by
  refine fillAux_inv n limit n s hpre ?_
  have := hpre.next_le
  omega

theorem execStart_inv {outcomes : Nat → Except ε α} (n limit : Nat) :
    ExecInv outcomes n limit (execStart α ε n limit) := by
  refine fill_inv n limit _ ?_
  refine ⟨Nat.zero_le n, ?_, List.nodup_nil, Nat.zero_le limit, ?_⟩
  · intro i hi
    simp [initExecState] at hi
  · intro i
    simp [initExecState]

theorem settleTask_inv {outcomes : Nat → Except ε α} (n limit i : Nat) (s : ExecState α ε)
    (hinv : ExecInv outcomes n limit s) :
    ExecInv outcomes n limit (settleTask outcomes n limit i s) := by
  unfold settleTask
  split_ifs with hmem
  · refine fill_inv n limit _ ?_
    constructor
    · dsimp only
      exact hinv.next_le
    · dsimp only
      intro j hj
      exact hinv.mem_lt j (List.mem_of_mem_erase hj)
    · dsimp only
      exact hinv.nodup.erase i
    · dsimp only
      exact le_trans (List.erase_sublist i s.unsettled).length_le hinv.window
    · dsimp only
      intro j
      by_cases hji : j = i
      · subst hji
        rw [Function.update_same]
        have h1 : j < s.nextToStart := hinv.mem_lt j hmem
        have h2 : j ∉ s.unsettled.erase j := hinv.nodup.not_mem_erase
        rw [if_pos ⟨h1, h2⟩]
      · rw [Function.update_noteq hji, hinv.res j]
        have hiff : (j < s.nextToStart ∧ j ∉ s.unsettled) ↔
            (j < s.nextToStart ∧ j ∉ s.unsettled.erase i) := by
          constructor
          · rintro ⟨h1, h2⟩
            exact ⟨h1, fun hc => h2 (List.mem_of_mem_erase hc)⟩
          · rintro ⟨h1, h2⟩
            refine ⟨h1, fun hc => h2 ?_⟩
            rw [hinv.nodup.mem_erase_iff]
            exact ⟨hji, hc⟩
        rw [if_congr hiff rfl rfl]
  · exact hinv

theorem foldl_settle_inv {outcomes : Nat → Except ε α} (n limit : Nat) :
    ∀ (sched : List Nat) (s : ExecState α ε), ExecInv outcomes n limit s →
      ExecInv outcomes n limit
        (sched.foldl (fun t i => settleTask outcomes n limit i t) s) := by
  intro sched
  induction sched with
  | nil => intro s hs; exact hs
  | cons a l ih =>
    intro s hs
    exact ih _ (settleTask_inv n limit a s hs)

theorem reach_inv {outcomes : Nat → Except ε α} (n limit : Nat) (s : ExecState α ε)
    (h : ReachExec outcomes n limit s) : ExecInv outcomes n limit s := by
  obtain ⟨sched, rfl⟩ := h
  exact foldl_settle_inv n limit sched _ (execStart_inv n limit)

theorem fillAux_seq1 (n : Nat) :
    ∀ (fuel : Nat) (s : ExecState α ε),
      (∀ i ∈ s.unsettled, s.nextToStart = i + 1) →
      ∀ i ∈ (fillAux n 1 fuel s).unsettled, (fillAux n 1 fuel s).nextToStart = i + 1 := by
  intro fuel
  induction fuel with
  | zero => intro s hs; exact hs
  | succ fuel ih =>
    intro s hs
    simp only [fillAux]
    split_ifs with hcond
    · obtain ⟨hlt, hlen⟩ := hcond
      have hnil : s.unsettled = [] := List.length_eq_zero.mp (by omega)
      refine ih _ ?_
      dsimp only
      intro i hi
      rw [hnil] at hi
      have : i = s.nextToStart := by simpa using hi
      omega
    · exact hs

theorem settleTask_seq1 {outcomes : Nat → Except ε α} (n i : Nat) (s : ExecState α ε)
    (hs : ∀ j ∈ s.unsettled, s.nextToStart = j + 1) :
    ∀ j ∈ (settleTask outcomes n 1 i s).unsettled,
      (settleTask outcomes n 1 i s).nextToStart = j + 1 := by
  unfold settleTask
  split_ifs with hmem
  · refine fillAux_seq1 n n _ ?_
    dsimp only
    intro j hj
    exact hs j (List.mem_of_mem_erase hj)
  · exact hs

theorem foldl_settle_seq1 {outcomes : Nat → Except ε α} (n : Nat) :
    ∀ (sched : List Nat) (s : ExecState α ε),
      (∀ i ∈ s.unsettled, s.nextToStart = i + 1) →
      ∀ i ∈ (sched.foldl (fun t j => settleTask outcomes n 1 j t) s).unsettled,
        (sched.foldl (fun t j => settleTask outcomes n 1 j t) s).nextToStart = i + 1 := by
  intro sched
  induction sched with
  | nil => intro s hs; exact hs
  | cons a l ih =>
    intro s hs
    exact ih _ (settleTask_seq1 n a s hs)

theorem reach_seq1 {outcomes : Nat → Except ε α} (n : Nat) (s : ExecState α ε)
    (h : ReachExec outcomes n 1 s) : ∀ i ∈ s.unsettled, s.nextToStart = i + 1 := by
  obtain ⟨sched, rfl⟩ := h
  have hstart : ∀ i ∈ (execStart α ε n 1).unsettled, (execStart α ε n 1).nextToStart = i + 1 := by
    refine fillAux_seq1 n n _ ?_
    intro i hi
    simp [initExecState] at hi
  exact foldl_settle_seq1 n sched _ hstart

/-- C5: in any reachable executor state, at most `limit` tasks are
started-and-unsettled at once; and with `limit = 1` execution is strictly
sequential in input order — whenever task `i + 1` has been started, task `i`
has already settled (to its own outcome). -/
theorem runConcurrentlyAtMost_window {α ε : Type} (outcomes : Nat → Except ε α)
    (n limit : Nat) (s : ExecState α ε) (hl : 1 ≤ limit)
    (hs : ReachExec outcomes n limit s) :
    s.unsettled.length ≤ limit ∧
    (limit = 1 → ∀ i : Nat, i + 1 < s.nextToStart → s.results i = some (outcomes i)) := by
  have hinv := reach_inv n limit s hs
  refine ⟨hinv.window, fun h1 i hi => ?_⟩
  subst h1
  have hseq := reach_seq1 n s hs
  have hni : i ∉ s.unsettled := by
    intro hmem
    have := hseq i hmem
    omega
  rw [hinv.res i, if_pos ⟨by omega, hni⟩]

def outc0 : Nat → Except Unit Nat := fun i => if i = 1 then .error () else .ok i

theorem runConcurrentlyAtMost_window_witness :
    (1 ≤ 1 ∧ ReachExec outc0 3 1 (runExec outc0 3 1 [0, 1])) ∧
    ((runExec outc0 3 1 [0, 1]).unsettled.length ≤ 1 ∧
      (1 = 1 → ∀ i : Nat, i + 1 < (runExec outc0 3 1 [0, 1]).nextToStart →
        (runExec outc0 3 1 [0, 1]).results i = some (outc0 i))) := by
  refine ⟨⟨le_refl 1, ⟨[0, 1], rfl⟩⟩, ?_⟩
  exact runConcurrentlyAtMost_window outc0 3 1 _ (le_refl 1) ⟨[0, 1], rfl⟩

/-- Tasks not yet settled (whether pending or in flight). -/
def pendingMeasure (n : Nat) (s : ExecState α ε) : Nat :=
  (n - s.nextToStart) + s.unsettled.length

theorem fillAux_measure (n limit : Nat) :
    ∀ (fuel : Nat) (s : ExecState α ε),
      pendingMeasure n (fillAux n limit fuel s) = pendingMeasure n s := by
  intro fuel
  induction fuel with
  | zero => intro s; rfl
  | succ fuel ih =>
    intro s
    simp only [fillAux]
    split_ifs with hcond
    · obtain ⟨hlt, hlen⟩ := hcond
      rw [ih]
      unfold pendingMeasure
      dsimp only
      rw [List.length_append, List.length_singleton]
      omega
    · rfl

theorem settleTask_measure (outcomes : Nat → Except ε α) (n limit i : Nat) (s : ExecState α ε)
    (hmem : i ∈ s.unsettled) :
    pendingMeasure n (settleTask outcomes n limit i s) + 1 = pendingMeasure n s := by
  unfold settleTask
  rw [if_pos hmem]
  unfold fill
  rw [fillAux_measure]
  unfold pendingMeasure
  dsimp only
  have := List.length_erase_add_one hmem
  omega

theorem progress_of_not_final {outcomes : Nat → Except ε α} (n limit : Nat)
    (s : ExecState α ε) (hinv : ExecInv outcomes n limit s) (hl : 1 ≤ limit)
    (hnf : ¬FinalExec n s) : ∃ i, i ∈ s.unsettled := by
  cases hu : s.unsettled with
  | nil =>
    exfalso
    apply hnf
    refine ⟨hinv.filled ?_, hu⟩
    rw [hu]
    simpa using hl
  | cons a l => exact ⟨a, by simp [hu]⟩

theorem exists_completion_from {outcomes : Nat → Except ε α} (n limit : Nat) (hl : 1 ≤ limit) :
    ∀ (m : Nat) (s : ExecState α ε), ExecInv outcomes n limit s → pendingMeasure n s ≤ m →
      ∃ sched : List Nat,
        FinalExec n (sched.foldl (fun t i => settleTask outcomes n limit i t) s) := by
  intro m
  induction m with
  | zero =>
    intro s hinv hm
    have h0 : s.unsettled.length = 0 := by
      unfold pendingMeasure at hm
      omega
    have hnil : s.unsettled = [] := List.length_eq_zero.mp h0
    have hnext : s.nextToStart = n := hinv.filled (by omega)
    exact ⟨[], hnext, hnil⟩
  | succ m ih =>
    intro s hinv hm
    by_cases hf : FinalExec n s
    · exact ⟨[], hf⟩
    · obtain ⟨i, hi⟩ := progress_of_not_final n limit s hinv hl hf
      have hstep := settleTask_measure outcomes n limit i s hi
      obtain ⟨sched, hs⟩ := ih (settleTask outcomes n limit i s)
        (settleTask_inv n limit i s hinv) (by omega)
      exact ⟨i :: sched, hs⟩

/-- C3: for every schedule that runs the executor to completion, the output
sequence has one slot per task in input order and slot `i` holds task `i`'s own
settled outcome — regardless of the completion order the scheduler chose; some
completing schedule always exists; and for the empty task list the initial
state is already final with an empty output, no settling step needed. -/
theorem runConcurrentlyAtMost_results {α ε : Type} (outcomes : Nat → Except ε α)
    (n limit : Nat) (sched : List Nat) (hl : 1 ≤ limit)
    (hfin : FinalExec n (runExec outcomes n limit sched)) :
    execOutput n (runExec outcomes n limit sched) =
      (List.range n).map (fun i => some (outcomes i)) ∧
    (execOutput n (runExec outcomes n limit sched)).length = n ∧
    (∃ sched2 : List Nat, FinalExec n (runExec outcomes n limit sched2)) ∧
    execOutput 0 (runExec outcomes 0 limit []) = [] ∧
    FinalExec 0 (runExec outcomes 0 limit []) := by
  have hinv := reach_inv n limit (runExec outcomes n limit sched) ⟨sched, rfl⟩
  obtain ⟨hnext, huns⟩ := hfin
  refine ⟨?_, ?_, ?_, ?_, ?_⟩
  · unfold execOutput
    refine List.map_congr_left ?_
    intro i hi
    rw [List.mem_range] at hi
    rw [hinv.res i, if_pos ⟨by omega, by rw [huns]; exact List.not_mem_nil i⟩]
  · unfold execOutput
    simp
  · exact exists_completion_from n limit hl (pendingMeasure n (execStart α ε n limit))
      (execStart α ε n limit) (execStart_inv n limit) (le_refl _)
  · rfl
  · exact ⟨rfl, rfl⟩

theorem runConcurrentlyAtMost_results_witness :
    (1 ≤ 2 ∧ FinalExec 3 (runExec outc0 3 2 [1, 0, 2])) ∧
    (execOutput 3 (runExec outc0 3 2 [1, 0, 2]) =
        (List.range 3).map (fun i => some (outc0 i)) ∧
      (execOutput 3 (runExec outc0 3 2 [1, 0, 2])).length = 3 ∧
      (∃ sched2 : List Nat, FinalExec 3 (runExec outc0 3 2 sched2)) ∧
      execOutput 0 (runExec outc0 0 2 []) = [] ∧
      FinalExec 0 (runExec outc0 0 2 [])) := by
  have hfin : FinalExec 3 (runExec outc0 3 2 [1, 0, 2]) := by
    constructor <;> rfl
  exact ⟨⟨by omega, hfin⟩, runConcurrentlyAtMost_results outc0 3 2 [1, 0, 2] (by omega) hfin⟩

theorem fillAux_ctrl (n limit : Nat) :
    ∀ (fuel : Nat) (s t : ExecState α ε), s.nextToStart = t.nextToStart →
      s.unsettled = t.unsettled →
      (fillAux n limit fuel s).nextToStart = (fillAux n limit fuel t).nextToStart ∧
      (fillAux n limit fuel s).unsettled = (fillAux n limit fuel t).unsettled := by
  intro fuel
  induction fuel with
  | zero => intro s t h1 h2; exact ⟨h1, h2⟩
  | succ fuel ih =>
    intro s t h1 h2
    simp only [fillAux]
    rw [h1, h2]
    split_ifs with hcond
    · exact ih _ _ (by dsimp only) (by dsimp only)
    · exact ⟨h1, h2⟩

theorem settleTask_ctrl (outcomes outcomes' : Nat → Except ε α) (n limit i : Nat)
    (s t : ExecState α ε) (h1 : s.nextToStart = t.nextToStart)
    (h2 : s.unsettled = t.unsettled) :
    (settleTask outcomes n limit i s).nextToStart =
      (settleTask outcomes' n limit i t).nextToStart ∧
    (settleTask outcomes n limit i s).unsettled =
      (settleTask outcomes' n limit i t).unsettled := by
  unfold settleTask
  rw [h2]
  split_ifs with hmem
  · unfold fill
    exact fillAux_ctrl n limit n _ _ (by dsimp only; exact h1) (by dsimp only)
  · exact ⟨h1, h2⟩

theorem foldl_settle_ctrl (outcomes outcomes' : Nat → Except ε α) (n limit : Nat) :
    ∀ (sched : List Nat) (s t : ExecState α ε), s.nextToStart = t.nextToStart →
      s.unsettled = t.unsettled →
      (sched.foldl (fun u i => settleTask outcomes n limit i u) s).nextToStart =
        (sched.foldl (fun u i => settleTask outcomes' n limit i u) t).nextToStart ∧
      (sched.foldl (fun u i => settleTask outcomes n limit i u) s).unsettled =
        (sched.foldl (fun u i => settleTask outcomes' n limit i u) t).unsettled := by
  intro sched
  induction sched with
  | nil => intro s t h1 h2; exact ⟨h1, h2⟩
  | cons a l ih =>
    intro s t h1 h2
    obtain ⟨h1', h2'⟩ := settleTask_ctrl outcomes outcomes' n limit a s t h1 h2
    exact ih _ _ h1' h2'

/-- C6: one task's failure does not cancel, skip, or alter the outcome of any
sibling task: replacing every other task's outcome (say by failures) changes
neither the executor's control flow — the run still settles every task — nor
task `i`'s own settled outcome, which is independently its own
success-with-value or failure-with-cause. -/
theorem runConcurrentlyAtMost_isolation {α ε : Type} (outcomes outcomes' : Nat → Except ε α)
    (n limit : Nat) (sched : List Nat) (i : Nat) (hl : 1 ≤ limit) (hi : i < n)
    (hagree : outcomes i = outcomes' i)
    (hfin : FinalExec n (runExec outcomes n limit sched)) :
    FinalExec n (runExec outcomes' n limit sched) ∧
    (runExec outcomes n limit sched).results i = some (outcomes i) ∧
    (runExec outcomes' n limit sched).results i = some (outcomes i) := by
  have hctrl := foldl_settle_ctrl outcomes outcomes' n limit sched (execStart α ε n limit)
    (execStart α ε n limit) rfl rfl
  obtain ⟨hnext, huns⟩ := hfin
  have hfin' : FinalExec n (runExec outcomes' n limit sched) :=
    ⟨hctrl.1 ▸ hnext, hctrl.2 ▸ huns⟩
  have hinv := reach_inv n limit (runExec outcomes n limit sched) ⟨sched, rfl⟩
  have hinv' := reach_inv n limit (runExec outcomes' n limit sched) ⟨sched, rfl⟩
  refine ⟨hfin', ?_, ?_⟩
  · rw [hinv.res i, if_pos ⟨by omega, by rw [huns]; exact List.not_mem_nil i⟩]
  · rw [hinv'.res i, if_pos ⟨by rw [hfin'.1]; omega, by rw [hfin'.2]; exact List.not_mem_nil i⟩,
      hagree]

def outc1 : Nat → Except Unit Nat := fun _ => .error ()

theorem runConcurrentlyAtMost_isolation_witness :
    (1 ≤ 2 ∧ 1 < 3 ∧ outc0 1 = outc1 1 ∧ FinalExec 3 (runExec outc0 3 2 [1, 0, 2])) ∧
    (FinalExec 3 (runExec outc1 3 2 [1, 0, 2]) ∧
      (runExec outc0 3 2 [1, 0, 2]).results 1 = some (outc0 1) ∧
      (runExec outc1 3 2 [1, 0, 2]).results 1 = some (outc0 1)) := by
  have hfin : FinalExec 3 (runExec outc0 3 2 [1, 0, 2]) := by
    constructor <;> rfl
  exact ⟨⟨by omega, by omega, rfl, hfin⟩,
    runConcurrentlyAtMost_isolation outc0 outc1 3 2 [1, 0, 2] 1 (by omega) (by omega) rfl hfin⟩

/-! ## Revalidating Cache (`swr`)

Modelled from the spec: the implementation file `utils/swr.js` is not among the
sources at hand (only callers such as `getEthereumOnlyDataSwr` in
`src/unnamed/part_001` are), so the cache is modelled from the spec's §3
`CacheEntry` data model, §4.1 behaviour-by-entry-state list and §5
shared-resource discipline.  One key is modelled (distinct keys share no
state).  The entry holds the stored value with its `computedAt` timestamp,
`running` counts executing `computeFn` invocations (the per-key in-flight
marker, set atomically before the compute starts and cleared atomically at
settlement), `invocations` is a history counter of compute starts, and
`callers` tracks each concurrent `get` call: not yet dispatched, awaiting the
in-flight computation, or returned with a value or an error. -/
structure SwrOpts where
  maxAge : Nat
  minTimeToStale : Nat

inductive CallerPhase (V E : Type) where
  | entering
  | awaiting
  | done (r : Except E V)

structure SwrState (V E : Type) where
  value : Option (V × Nat)
  running : Nat
  invocations : Nat
  callers : List (CallerPhase V E)
  now : Nat

/-- Whether a caller slot holds a `get` call that has not been dispatched yet. -/
def isEntering : Option (CallerPhase V E) → Bool
  | some .entering => true
  | _ => false


/-- Dispatch when no value is stored: with no in-flight compute, start one
(spec case 1) and await it; with one already in flight, join it without
starting another (stampede guard, spec case 5). -/
def enterNone (s : SwrState V E) (j : Nat) : SwrState V E :=
  if s.running = 0 then
    { s with running := 1, invocations := s.invocations + 1,
             callers := s.callers.set j .awaiting }
  else
    { s with callers := s.callers.set j .awaiting }

/-- Dispatch when a value computed at `t` is stored: fresh → return it (spec
case 2); soft-stale with no in-flight compute → start exactly one background
refresh and return the stale value at once (case 3); soft-stale with a refresh
in flight → return the stale value, no second computation (case 3); hard-expired
with no in-flight compute → start the compute synchronously and await it
(cases 1/5); hard-expired while a refresh is in flight → serve the current
value to bridge the gap, no second computation (case 4). -/
def enterSome (opts : SwrOpts) (s : SwrState V E) (j : Nat) (v : V) (t : Nat) : SwrState V E :=
  if s.now - t < opts.minTimeToStale then
    { s with callers := s.callers.set j (.done (.ok v)) }
  else if s.now - t < opts.maxAge then
    if s.running = 0 then
      { s with running := 1, invocations := s.invocations + 1,
               callers := s.callers.set j (.done (.ok v)) }
    else
      { s with callers := s.callers.set j (.done (.ok v)) }
  else
    if s.running = 0 then
      { s with running := 1, invocations := s.invocations + 1,
               callers := s.callers.set j .awaiting }
    else
      { s with callers := s.callers.set j (.done (.ok v)) }

/-- Caller `j` enters `get`, atomically dispatching on the entry state per the
spec's behaviour-by-entry-state list. -/
def enterGet (opts : SwrOpts) (s : SwrState V E) (j : Nat) : SwrState V E :=
  if isEntering s.callers[j]? then
    match s.value with
    | none => enterNone s j
    | some (v, t) => enterSome opts s j v t
  else s

/-- The in-flight computation settles: the marker is cleared in the same atomic
transition; on success the stored value and timestamp are replaced, on failure
they are left exactly as they were; every awaiting caller receives the same
settled outcome. -/
def settleCompute (s : SwrState V E) (r : Except E V) : SwrState V E :=
  if s.running = 0 then s
  else
    { s with
        running := s.running - 1,
        value := match r with | .ok v => some (v, s.now) | .error _ => s.value,
        callers := s.callers.map (fun c =>
          match c with
          | .awaiting => .done r
          | c => c) }

inductive SwrEvent (V E : Type) where
  | enter (j : Nat)
  | settle (r : Except E V)
  | tick

def applyEvent (opts : SwrOpts) (s : SwrState V E) : SwrEvent V E → SwrState V E
  | .enter j => enterGet opts s j
  | .settle r => settleCompute s r
  | .tick => { s with now := s.now + 1 }

def runSwr (opts : SwrOpts) (events : List (SwrEvent V E)) (s : SwrState V E) : SwrState V E :=
  events.foldl (applyEvent opts) s

/-- `N` concurrent `get` calls arriving while no entry exists for the key. -/
def initConcurrent (V E : Type) (N t0 : Nat) : SwrState V E :=
  ⟨none, 0, 0, List.replicate N .entering, t0⟩

theorem enterGet_eq_none {V E : Type} (opts : SwrOpts) (s : SwrState V E) (j : Nat)
    (hent : isEntering s.callers[j]? = true) (hv : s.value = none) :
    enterGet opts s j = enterNone s j := by
  unfold enterGet
  rw [if_pos hent, hv]

theorem enterGet_eq_some {V E : Type} (opts : SwrOpts) (s : SwrState V E) (j : Nat)
    (v : V) (t : Nat) (hent : isEntering s.callers[j]? = true) (hv : s.value = some (v, t)) :
    enterGet opts s j = enterSome opts s j v t := by
  unfold enterGet
  rw [if_pos hent, hv]

theorem enterGet_noop {V E : Type} (opts : SwrOpts) (s : SwrState V E) (j : Nat)
    (hent : isEntering s.callers[j]? = false) : enterGet opts s j = s := by
  unfold enterGet
  rw [if_neg (by simp [hent])]

theorem enterGet_running_le {V E : Type} (opts : SwrOpts) (s : SwrState V E) (j : Nat)
    (h : s.running ≤ 1) : (enterGet opts s j).running ≤ 1 := by
  by_cases hent : isEntering s.callers[j]? = true
  · cases hv : s.value with
    | none =>
      rw [enterGet_eq_none opts s j hent hv]
      unfold enterNone
      split_ifs <;> (try dsimp only) <;> omega
    | some vt =>
      obtain ⟨v, t⟩ := vt
      rw [enterGet_eq_some opts s j v t hent hv]
      unfold enterSome
      split_ifs <;> (try dsimp only) <;> omega
  · rw [enterGet_noop opts s j (by simpa using hent)]
    exact h

theorem applyEvent_running_le {V E : Type} (opts : SwrOpts) (s : SwrState V E)
    (e : SwrEvent V E) (h : s.running ≤ 1) : (applyEvent opts s e).running ≤ 1 := by
  cases e with
  | enter j => exact enterGet_running_le opts s j h
  | settle r =>
    show (settleCompute s r).running ≤ 1
    unfold settleCompute
    split_ifs <;> (try dsimp only) <;> omega
  | tick => exact h

theorem runSwr_running_le {V E : Type} (opts : SwrOpts) :
    ∀ (events : List (SwrEvent V E)) (s : SwrState V E), s.running ≤ 1 →
      (runSwr opts events s).running ≤ 1 := by
  intro events
  induction events with
  | nil => intro s h; exact h
  | cons e l ih =>
    intro s h
    exact ih _ (applyEvent_running_le opts s e h)

theorem enterGet_phase1 {V E : Type} (opts : SwrOpts) (s : SwrState V E) (j : Nat)
    (hval : s.value = none) (hrun : s.running = 1) (hinvoc : s.invocations = 1) :
    (enterGet opts s j).value = none ∧ (enterGet opts s j).running = 1 ∧
      (enterGet opts s j).invocations = 1 := by
  by_cases hent : isEntering s.callers[j]? = true
  · rw [enterGet_eq_none opts s j hent hval]
    unfold enterNone
    rw [if_neg (by omega)]
    exact ⟨hval, hrun, hinvoc⟩
  · rw [enterGet_noop opts s j (by simpa using hent)]
    exact ⟨hval, hrun, hinvoc⟩

theorem enters_phase1 {V E : Type} (opts : SwrOpts) :
    ∀ (js : List Nat) (s : SwrState V E),
      s.value = none → s.running = 1 → s.invocations = 1 →
      (runSwr opts (js.map SwrEvent.enter) s).running = 1 ∧
        (runSwr opts (js.map SwrEvent.enter) s).invocations = 1 := by
  intro js
  induction js with
  | nil => intro s _ h2 h3; exact ⟨h2, h3⟩
  | cons j l ih =>
    intro s h1 h2 h3
    obtain ⟨h1', h2', h3'⟩ := enterGet_phase1 opts s j h1 h2 h3
    exact ih _ h1' h2' h3'

theorem enterGet_start {V E : Type} (opts : SwrOpts) (s : SwrState V E) (j : Nat)
    (hval : s.value = none) (hrun : s.running = 0)
    (hent : isEntering s.callers[j]? = true) :
    (enterGet opts s j).value = none ∧ (enterGet opts s j).running = 1 ∧
      (enterGet opts s j).invocations = s.invocations + 1 := by
  rw [enterGet_eq_none opts s j hent hval]
  unfold enterNone
  rw [if_pos hrun]
  exact ⟨hval, rfl, rfl⟩

theorem enters_from_empty {V E : Type} (opts : SwrOpts) :
    ∀ (js : List Nat) (s : SwrState V E),
      s.value = none → s.running = 0 → s.invocations = 0 →
      (∀ c ∈ s.callers, c = CallerPhase.entering) →
      (∃ j ∈ js, j < s.callers.length) →
      (runSwr opts (js.map SwrEvent.enter) s).running = 1 ∧
        (runSwr opts (js.map SwrEvent.enter) s).invocations = 1 := by
  intro js
  induction js with
  | nil =>
    intro s _ _ _ _ hjs
    simp at hjs
  | cons j l ih =>
    intro s h1 h2 h3 hall hjs
    by_cases hj : j < s.callers.length
    · have hcall : s.callers[j]? = some CallerPhase.entering := by
        rw [List.getElem?_eq_getElem hj]
        exact congrArg some (hall _ (List.getElem_mem hj))
      have hent : isEntering s.callers[j]? = true := by rw [hcall]; rfl
      obtain ⟨h1', h2', h3'⟩ := enterGet_start opts s j h1 h2 hent
      rw [h3] at h3'
      exact enters_phase1 opts l (enterGet opts s j) h1' h2' h3'
    · have hent : isEntering s.callers[j]? = false := by
        rw [List.getElem?_eq_none (by omega)]
        rfl
      have hnoop : enterGet opts s j = s := enterGet_noop opts s j hent
      have hstep : runSwr opts ((j :: l).map SwrEvent.enter) s =
          runSwr opts (l.map SwrEvent.enter) s := by
        show runSwr opts (l.map SwrEvent.enter) (enterGet opts s j) = _
        rw [hnoop]
      rw [hstep]
      refine ih s h1 h2 h3 hall ?_
      obtain ⟨k, hk, hklt⟩ := hjs
      rcases List.mem_cons.mp hk with rfl | hk'
      · omega
      · exact ⟨k, hk', hklt⟩

/-- C1: the revalidating cache never has more than one concurrently-executing
`computeFn` invocation for a key — every trace from a state with at most one
running compute keeps at most one running — and for any number of concurrent
`get` calls arriving while no entry exists for the key, `computeFn` is started
exactly once: the first arrival starts it, every other arrival joins it. -/
theorem swr_stampede_guard {V E : Type} (opts : SwrOpts) (N t0 : Nat) (js : List Nat)
    (hjs : ∃ j ∈ js, j < N) :
    (runSwr opts (js.map SwrEvent.enter) (initConcurrent V E N t0)).invocations = 1 ∧
    (runSwr opts (js.map SwrEvent.enter) (initConcurrent V E N t0)).running = 1 ∧
    (∀ (events : List (SwrEvent V E)) (s : SwrState V E), s.running ≤ 1 →
      (runSwr opts events s).running ≤ 1) := by
  have hmain := enters_from_empty opts js (initConcurrent V E N t0) rfl rfl rfl
    (fun c hc => List.eq_of_mem_replicate hc)
    (by
      obtain ⟨j, hj, hjN⟩ := hjs
      exact ⟨j, hj, by simpa [initConcurrent] using hjN⟩)
  exact ⟨hmain.2, hmain.1, fun events s h => runSwr_running_le opts events s h⟩

theorem swr_stampede_guard_witness :
    (∃ j ∈ [0, 1, 5], j < 3) ∧
    ((runSwr ⟨2, 1⟩ ([0, 1, 5].map SwrEvent.enter)
        (initConcurrent Nat Unit 3 0)).invocations = 1 ∧
      (runSwr ⟨2, 1⟩ ([0, 1, 5].map SwrEvent.enter)
        (initConcurrent Nat Unit 3 0)).running = 1 ∧
      (∀ (events : List (SwrEvent Nat Unit)) (s : SwrState Nat Unit), s.running ≤ 1 →
        (runSwr ⟨2, 1⟩ events s).running ≤ 1)) := by
  have hjs : ∃ j ∈ [0, 1, 5], j < 3 := ⟨0, by decide, by decide⟩
  exact ⟨hjs, swr_stampede_guard ⟨2, 1⟩ 3 0 [0, 1, 5] hjs⟩

theorem getElem?_set_of_lt {α : Type} (l : List α) (i : Nat) (a : α) (h : i < l.length) :
    (l.set i a)[i]? = some a := by
  rw [List.getElem?_set_self]
  simp [h]

theorem settle_map_id {V E : Type} (r : Except E V) (l : List (CallerPhase V E))
    (h : ∀ c ∈ l, c ≠ CallerPhase.awaiting) :
    l.map (fun c => match c with
      | CallerPhase.awaiting => CallerPhase.done r
      | c => c) = l := by
  have hpt : ∀ c ∈ l, (match c with
      | CallerPhase.awaiting => CallerPhase.done r
      | c => c) = id c := by
    intro c hc
    cases c with
    | entering => rfl
    | awaiting => exact absurd rfl (h _ hc)
    | done r2 => rfl
  rw [List.map_congr_left hpt, List.map_id]

theorem settleCompute_error {V E : Type} (s : SwrState V E) (e : E) (hrun : s.running = 1)
    (hnoawait : ∀ c ∈ s.callers, c ≠ CallerPhase.awaiting) :
    (settleCompute s (Except.error e)).value = s.value ∧
    (settleCompute s (Except.error e)).callers = s.callers ∧
    (settleCompute s (Except.error e)).running = 0 := by
  unfold settleCompute
  rw [if_neg (by omega)]
  refine ⟨rfl, ?_, by dsimp only; omega⟩
  dsimp only
  exact settle_map_id (Except.error e) s.callers hnoawait

/-- C7: for an entry whose age is in the soft-stale window
`[minTimeToStale, maxAge)`, a `get` returns the stale value synchronously and
starts exactly one background recomputation; when that recomputation fails, the
entry's stored value and its timestamp are left exactly as they were before the
attempt, and the failure reaches no caller of `get` — every caller's observed
result is unchanged by the settling of the failed computation. -/
theorem swr_background_failure {V E : Type} (opts : SwrOpts) (s : SwrState V E)
    (j : Nat) (v : V) (t : Nat) (e : E)
    (hv : s.value = some (v, t))
    (hstale : opts.minTimeToStale ≤ s.now - t)
    (hfresh : s.now - t < opts.maxAge)
    (hrun : s.running = 0)
    (hj : s.callers[j]? = some CallerPhase.entering)
    (hnoawait : ∀ c ∈ s.callers, c ≠ CallerPhase.awaiting) :
    (enterGet opts s j).value = some (v, t) ∧
    (enterGet opts s j).callers[j]? = some (CallerPhase.done (Except.ok v)) ∧
    (enterGet opts s j).running = 1 ∧
    (enterGet opts s j).invocations = s.invocations + 1 ∧
    (settleCompute (enterGet opts s j) (Except.error e)).value = some (v, t) ∧
    (settleCompute (enterGet opts s j) (Except.error e)).callers = (enterGet opts s j).callers ∧
    (settleCompute (enterGet opts s j) (Except.error e)).running = 0 := by
  have hent : isEntering s.callers[j]? = true := by rw [hj]; rfl
  have hjlt : j < s.callers.length := by
    by_contra hcon
    rw [List.getElem?_eq_none (by omega)] at hj
    exact Option.noConfusion hj
  have hnoawait2 : ∀ c ∈ s.callers.set j (CallerPhase.done (Except.ok v)),
      c ≠ CallerPhase.awaiting := by
    intro c hc
    rcases List.mem_or_eq_of_mem_set hc with hc' | rfl
    · exact hnoawait c hc'
    · exact fun hcon => CallerPhase.noConfusion hcon
  rw [enterGet_eq_some opts s j v t hent hv]
  unfold enterSome
  rw [if_neg (by omega), if_pos hfresh, if_pos hrun]
  refine ⟨hv, getElem?_set_of_lt s.callers j _ hjlt, rfl, rfl, ?_, ?_, ?_⟩
  · exact (settleCompute_error _ e rfl hnoawait2).1.trans hv
  · exact (settleCompute_error _ e rfl hnoawait2).2.1
  · exact (settleCompute_error _ e rfl hnoawait2).2.2

def s0cache : SwrState Nat Unit := ⟨some (7, 0), 0, 0, [CallerPhase.entering], 3⟩

theorem swr_background_failure_witness :
    (s0cache.value = some (7, 0) ∧ (2 : Nat) ≤ s0cache.now - 0 ∧ s0cache.now - 0 < 5 ∧
      s0cache.running = 0 ∧ s0cache.callers[0]? = some CallerPhase.entering) ∧
    ((enterGet ⟨5, 2⟩ s0cache 0).value = some (7, 0) ∧
      (enterGet ⟨5, 2⟩ s0cache 0).callers[0]? = some (CallerPhase.done (Except.ok 7)) ∧
      (enterGet ⟨5, 2⟩ s0cache 0).running = 1 ∧
      (enterGet ⟨5, 2⟩ s0cache 0).invocations = s0cache.invocations + 1 ∧
      (settleCompute (enterGet ⟨5, 2⟩ s0cache 0) (Except.error ())).value = some (7, 0) ∧
      (settleCompute (enterGet ⟨5, 2⟩ s0cache 0) (Except.error ())).callers =
        (enterGet ⟨5, 2⟩ s0cache 0).callers ∧
      (settleCompute (enterGet ⟨5, 2⟩ s0cache 0) (Except.error ())).running = 0) := by
  have hnoawait : ∀ c ∈ s0cache.callers, c ≠ CallerPhase.awaiting := by
    intro c hc
    rcases List.mem_singleton.mp hc with rfl
    exact fun hcon => CallerPhase.noConfusion hcon
  exact ⟨⟨rfl, by decide, by decide, rfl, rfl⟩,
    swr_background_failure ⟨5, 2⟩ s0cache 0 7 0 () rfl (by decide) (by decide) rfl rfl hnoawait⟩

/-- C8: when `get` finds no value for the key — or a hard-expired value with no
refresh in flight — and the computation fails, that failure propagates directly
to the caller of `get` (first and last conjuncts cover the two triggers); and
this is the only failure class that reaches a caller: a `get` answered
synchronously (without awaiting a computation) always returns a success, and a
caller only ends up awaiting — hence exposed to a computation failure — when no
value exists or the value is past hard expiry with no refresh in flight. -/
theorem swr_hard_miss_failure {V E : Type} (opts : SwrOpts) (s : SwrState V E)
    (j : Nat) (e : E)
    (hv : s.value = none) (hrun : s.running = 0)
    (hj : s.callers[j]? = some CallerPhase.entering) :
    (settleCompute (enterGet opts s j) (Except.error e)).callers[j]? =
      some (CallerPhase.done (Except.error e)) ∧
    (∀ (s2 : SwrState V E) (k : Nat) (r : Except E V),
      (enterGet opts s2 k).callers[k]? = some (CallerPhase.done r) →
      s2.callers[k]? = some CallerPhase.entering →
      ∃ v2, r = Except.ok v2) ∧
    (∀ (s2 : SwrState V E) (k : Nat),
      (enterGet opts s2 k).callers[k]? = some CallerPhase.awaiting →
      s2.callers[k]? = some CallerPhase.entering →
      s2.value = none ∨
        ∃ v2 t2, s2.value = some (v2, t2) ∧ opts.maxAge ≤ s2.now - t2 ∧ s2.running = 0) ∧
    (∀ (s3 : SwrState V E) (k : Nat) (v3 : V) (t3 : Nat) (e3 : E),
      opts.minTimeToStale ≤ opts.maxAge →
      s3.value = some (v3, t3) → opts.maxAge ≤ s3.now - t3 → s3.running = 0 →
      s3.callers[k]? = some CallerPhase.entering →
      (settleCompute (enterGet opts s3 k) (Except.error e3)).callers[k]? =
        some (CallerPhase.done (Except.error e3))) := by
  refine ⟨?_, ?_, ?_, ?_⟩
  · have hent : isEntering s.callers[j]? = true := by rw [hj]; rfl
    have hjlt : j < s.callers.length := by
      by_contra hcon
      rw [List.getElem?_eq_none (by omega)] at hj
      exact Option.noConfusion hj
    rw [enterGet_eq_none opts s j hent hv]
    unfold enterNone
    rw [if_pos hrun]
    unfold settleCompute
    rw [if_neg (by dsimp only; omega)]
    dsimp only
    rw [List.getElem?_map, getElem?_set_of_lt s.callers j _ hjlt]
    rfl
  · intro s2 k r h1 h2
    have hent : isEntering s2.callers[k]? = true := by rw [h2]; rfl
    have hklt : k < s2.callers.length := by
      by_contra hcon
      rw [List.getElem?_eq_none (by omega)] at h2
      exact Option.noConfusion h2
    cases hv2 : s2.value with
    | none =>
      rw [enterGet_eq_none opts s2 k hent hv2] at h1
      unfold enterNone at h1
      split_ifs at h1 <;> dsimp only at h1 <;>
        rw [getElem?_set_of_lt s2.callers k _ hklt] at h1 <;>
        · injection h1 with h1'
          injection h1'
    | some vt =>
      obtain ⟨v, t⟩ := vt
      rw [enterGet_eq_some opts s2 k v t hent hv2] at h1
      unfold enterSome at h1
      split_ifs at h1 <;> dsimp only at h1 <;>
        rw [getElem?_set_of_lt s2.callers k _ hklt] at h1 <;>
        first
          | (injection h1 with h1'
             injection h1' with h1''
             exact ⟨v, h1''.symm⟩)
          | (injection h1 with h1'
             injection h1')
  · intro s2 k h1 h2
    have hent : isEntering s2.callers[k]? = true := by rw [h2]; rfl
    have hklt : k < s2.callers.length := by
      by_contra hcon
      rw [List.getElem?_eq_none (by omega)] at h2
      exact Option.noConfusion h2
    cases hv2 : s2.value with
    | none => exact Or.inl rfl
    | some vt =>
      obtain ⟨v, t⟩ := vt
      rw [enterGet_eq_some opts s2 k v t hent hv2] at h1
      unfold enterSome at h1
      split_ifs at h1 with ha hb hc hd <;> dsimp only at h1 <;>
        rw [getElem?_set_of_lt s2.callers k _ hklt] at h1
      · injection h1 with h1'
        injection h1'
      · injection h1 with h1'
        injection h1'
      · injection h1 with h1'
        injection h1'
      · exact Or.inr ⟨v, t, rfl, by omega, hd⟩
      · injection h1 with h1'
        injection h1'
  · intro s3 k v3 t3 e3 hle hv3 hexp hrun3 hk
    have hent : isEntering s3.callers[k]? = true := by rw [hk]; rfl
    have hklt : k < s3.callers.length := by
      by_contra hcon
      rw [List.getElem?_eq_none (by omega)] at hk
      exact Option.noConfusion hk
    rw [enterGet_eq_some opts s3 k v3 t3 hent hv3]
    unfold enterSome
    rw [if_neg (by omega), if_neg (by omega), if_pos hrun3]
    unfold settleCompute
    rw [if_neg (by dsimp only; omega)]
    dsimp only
    rw [List.getElem?_map, getElem?_set_of_lt s3.callers k _ hklt]
    rfl

def s1cache : SwrState Nat Unit := ⟨none, 0, 0, [CallerPhase.entering], 0⟩

def s2cache : SwrState Nat Unit := ⟨some (7, 0), 0, 0, [CallerPhase.entering], 9⟩

theorem swr_hard_miss_failure_witness :
    (s1cache.value = none ∧ s1cache.running = 0 ∧
      s1cache.callers[0]? = some CallerPhase.entering) ∧
    ((2 : Nat) ≤ 5 ∧ s2cache.value = some (7, 0) ∧ (5 : Nat) ≤ s2cache.now - 0 ∧
      s2cache.running = 0 ∧ s2cache.callers[0]? = some CallerPhase.entering) ∧
    ((settleCompute (enterGet ⟨5, 2⟩ s1cache 0) (Except.error ())).callers[0]? =
        some (CallerPhase.done (Except.error ())) ∧
      (∀ (s2 : SwrState Nat Unit) (k : Nat) (r : Except Unit Nat),
        (enterGet ⟨5, 2⟩ s2 k).callers[k]? = some (CallerPhase.done r) →
        s2.callers[k]? = some CallerPhase.entering →
        ∃ v2, r = Except.ok v2) ∧
      (∀ (s2 : SwrState Nat Unit) (k : Nat),
        (enterGet ⟨5, 2⟩ s2 k).callers[k]? = some CallerPhase.awaiting →
        s2.callers[k]? = some CallerPhase.entering →
        s2.value = none ∨
          ∃ v2 t2, s2.value = some (v2, t2) ∧ (5 : Nat) ≤ s2.now - t2 ∧ s2.running = 0)) ∧
    (settleCompute (enterGet ⟨5, 2⟩ s2cache 0) (Except.error ())).callers[0]? =
      some (CallerPhase.done (Except.error ())) := by
  have hthm := swr_hard_miss_failure ⟨5, 2⟩ s1cache 0 () rfl rfl rfl
  refine ⟨⟨rfl, rfl, rfl⟩, ⟨by decide, rfl, by decide, rfl, rfl⟩,
    ⟨hthm.1, hthm.2.1, hthm.2.2.1⟩, ?_⟩
  exact hthm.2.2.2 s2cache 0 7 0 () (by decide) rfl (by decide) rfl rfl
